import Mathlib

/-!
# Verification of the voicetrainer transcript / audio / translation core

Shallow embedding of the repository's core algorithms, translated from the
TypeScript sources:

* `src/services/geminiService.ts` — batch-translation orchestrator
  (`buildTranslationBatches`, `translateBatchWithRecovery`, `translateSegments`),
  the free-text transcript parser (`parseTranscriptText`,
  `detectTranscriptFormat`), audio slicing (`sliceAudioBuffer`), the WAV
  sample quantization step of `audioBufferToWav`, and pitch-contour
  normalization (`normalizePitchData`).
* `src/server/transcriptApi.ts` — the VTT caption parser (`parseVtt`,
  `parseTimestamp`, `cleanVttText`, `mergeSegments`).

JavaScript `number`s that carry times, rates and samples are modelled as `ℚ`
(no claim under scrutiny depends on binary floating point rounding; places
where `ℚ` and IEEE doubles could diverge are noted in comments).  Counters and
lengths are `ℕ`/`ℤ` as appropriate.  Loops over arrays become structural
recursions; where the source loop advances an index by a data-dependent
amount, the recursion carries an explicit fuel bounded by the number of input
lines, so that every definition remains executable by the kernel.
-/

attribute [local semireducible] Rat.add Rat.mul Rat.sub Rat.inv

namespace VoiceTrainer

/-! ## Audio: `sliceAudioBuffer` (src/services/geminiService.ts:1179-1204)

An `AudioBuffer` is modelled by its sample rate and its channel-0 sample data
(the source's slicer reads only channel 0 and writes a mono buffer). -/

structure AudioBuf where
  sampleRate : ℚ
  samples : List ℚ
  deriving DecidableEq

/-- `sliceAudioBuffer(buffer, start, duration)` from geminiService.ts:1179.
`Math.floor` is `Int.floor`.  The copy loop `newChannelData[i] =
channelData[startSample + i]` is modelled with a default of `0` for an
out-of-range read (in JS such a read, possible only when `start < 0`, stores
`NaN`; no claim depends on the copied values). -/
def sliceAudioBuffer (buffer : AudioBuf) (start duration : ℚ) : Option AudioBuf :=
  -- source locals: startSample = ⌊start*sampleRate⌋, endSample = ⌊(start+duration)*sampleRate⌋,
  -- length = min endSample buffer.length - startSample (all inlined below)
  if (buffer.samples.length : ℤ) ≤ ⌊start * buffer.sampleRate⌋ then none
  else if min ⌊(start + duration) * buffer.sampleRate⌋ (buffer.samples.length : ℤ)
      - ⌊start * buffer.sampleRate⌋ ≤ 0 then none
  else
    some { sampleRate := buffer.sampleRate
           samples := (List.range (min ⌊(start + duration) * buffer.sampleRate⌋
               (buffer.samples.length : ℤ) - ⌊start * buffer.sampleRate⌋).toNat).map
             (fun (i : ℕ) => buffer.samples.getD (⌊start * buffer.sampleRate⌋ + (i : ℤ)).toNat 0) }

/-! ## Audio: WAV sample quantization (src/services/geminiService.ts:1294-1295)

The per-sample conversion inside `audioBufferToWav`:

    sample = Math.max(-1, Math.min(1, channels[i][pos])); // clamp
    sample = (0.5 + sample < 0 ? sample * 32768 : sample * 32767) | 0;

`| 0` truncates toward zero (the values here lie in `[-32768, 32767]`, so the
32-bit wrap of `| 0` never fires). -/

/-- Truncation toward zero, the effect of JavaScript `| 0` on the in-range
values produced here. -/
def truncToInt (x : ℚ) : ℤ := if 0 ≤ x then ⌊x⌋ else ⌈x⌉

/-- The WAV encoder's sample conversion, exactly as written in the source:
note that `0.5 + sample < 0` parses as `(0.5 + sample) < 0`. -/
def wavSampleToInt (sample : ℚ) : ℤ :=
  truncToInt (if (1 : ℚ)/2 + max (-1) (min 1 sample) < 0
    then max (-1) (min 1 sample) * 32768 else max (-1) (min 1 sample) * 32767)

/-- The conversion as the specification describes it: factor 32768 for a
negative (clamped) sample, 32767 for a non-negative one. -/
def wavSampleToIntSpecClaim (sample : ℚ) : ℤ :=
  truncToInt (if max (-1) (min 1 sample) < 0
    then max (-1) (min 1 sample) * 32768 else max (-1) (min 1 sample) * 32767)

/-- The conversion as amended: factor 32768 exactly when the clamped sample is
below `-0.5`, 32767 otherwise. -/
def wavSampleToIntAmended (sample : ℚ) : ℤ :=
  truncToInt (if max (-1) (min 1 sample) < -(1/2 : ℚ)
    then max (-1) (min 1 sample) * 32768 else max (-1) (min 1 sample) * 32767)

/-! ## Pitch: `normalizePitchData` (src/services/geminiService.ts:1410-1420) -/

/-- `normalizePitchData(data)`: drop the zeros, min-max scale the rest.
`Math.min(...nonZero)` / `Math.max(...nonZero)` are folds over the non-zero
subset.  (For `max = min` the source divides by zero producing `NaN`; in `ℚ`
the division yields `0`.  No statement below touches that case.) -/
def normalizePitchData (data : List ℚ) : List ℚ :=
  let nonZero := data.filter (fun n => 0 < n)
  match nonZero with
  | [] => data
  | h :: t =>
    let mn := t.foldl min h
    let mx := t.foldl max h
    data.map (fun v => if v = 0 then 0 else (v - mn) / (mx - mn))

/-! ## Theorems for claims C3, C4, C5 -/

/-- C3: `sliceAudioBuffer` returns `null` iff `start*sampleRate >=
buffer.length` or the computed sample length `min(endSample, buffer.length) -
startSample` is `≤ 0` (with `startSample = ⌊start*sampleRate⌋`, `endSample =
⌊(start+duration)*sampleRate⌋`); otherwise the returned buffer has exactly
that many samples. -/
theorem sliceAudioBuffer_null_iff (buffer : AudioBuf) (start duration : ℚ) :
    (sliceAudioBuffer buffer start duration = none ↔
      ((buffer.samples.length : ℚ) ≤ start * buffer.sampleRate ∨
        min ⌊(start + duration) * buffer.sampleRate⌋ (buffer.samples.length : ℤ)
          - ⌊start * buffer.sampleRate⌋ ≤ 0)) ∧
    (∀ out, sliceAudioBuffer buffer start duration = some out →
      (out.samples.length : ℤ) =
        min ⌊(start + duration) * buffer.sampleRate⌋ (buffer.samples.length : ℤ)
          - ⌊start * buffer.sampleRate⌋) := by
  have hfloor : ((buffer.samples.length : ℤ) ≤ ⌊start * buffer.sampleRate⌋) ↔
      ((buffer.samples.length : ℚ) ≤ start * buffer.sampleRate) := by
    rw [Int.le_floor]; norm_cast
  unfold sliceAudioBuffer
  split_ifs with h1 h2
  · refine ⟨⟨fun _ => Or.inl (hfloor.mp h1), fun _ => rfl⟩, fun out hout => by cases hout⟩
  · refine ⟨⟨fun _ => Or.inr h2, fun _ => rfl⟩, fun out hout => by cases hout⟩
  · constructor
    · constructor
      · intro h
        cases h
      · intro h
        rcases h with h | h
        · exact absurd (hfloor.mpr h) h1
        · exact absurd h h2
    · intro out hout
      cases hout
      simp only [List.length_map, List.length_range]
      omega

/-- C3 witness: a concrete buffer of four samples at rate 1, sliced from
second 1 for 2 seconds, yields a buffer of 2 samples. -/
theorem sliceAudioBuffer_null_iff_witness :
    (sliceAudioBuffer ⟨1, [0, 0, 0, 0]⟩ 1 2 = some ⟨1, [0, 0]⟩) ∧
    (((⟨1, [0, 0]⟩ : AudioBuf).samples.length : ℤ) =
      min ⌊((1 : ℚ) + 2) * (⟨1, [0, 0, 0, 0]⟩ : AudioBuf).sampleRate⌋
        ((⟨1, [0, 0, 0, 0]⟩ : AudioBuf).samples.length : ℤ)
        - ⌊(1 : ℚ) * (⟨1, [0, 0, 0, 0]⟩ : AudioBuf).sampleRate⌋) :=
  ⟨by decide, (sliceAudioBuffer_null_iff ⟨1, [0, 0, 0, 0]⟩ 1 2).2 ⟨1, [0, 0]⟩ (by decide)⟩

/-- C4 counterexample: `[100, 200, 300]` normalizes to `[0, 1/2, 1]`, an
already-normalized non-empty contour; applying `normalizePitchData` again
yields `[0, 0, 1]` (the minimum non-zero value `1/2` is remapped to the
silence sentinel `0` and the rest rescaled), a change of `1/2`, far beyond any
floating-point tolerance.  Hence the function is not idempotent. -/
theorem normalizePitchData_not_idempotent :
    normalizePitchData (normalizePitchData [100, 200, 300]) ≠
      normalizePitchData [100, 200, 300] := by decide

/-- C4 (amended): `normalizePitchData` maps any all-zero contour to itself
unchanged (it is not idempotent on general normalized contours, see the
counterexample). -/
theorem normalizePitchData_all_zero (data : List ℚ) (h : ∀ v ∈ data, v = 0) :
    normalizePitchData data = data := by
  have hfil : data.filter (fun n => decide (0 < n)) = [] := by
    rw [List.filter_eq_nil_iff]
    intro a ha
    simp [h a ha]
  unfold normalizePitchData
  rw [hfil]

/-- C4 witness: the all-zero contour `[0, 0, 0]` is unchanged. -/
theorem normalizePitchData_all_zero_witness :
    normalizePitchData [0, 0, 0] = [0, 0, 0] :=
  normalizePitchData_all_zero [0, 0, 0] (by decide)

/-- C5 counterexample: for the sample `-0.4` the encoder computes
`trunc(-0.4 * 32767) = -13106`, while the claimed rule (factor 32768 for every
negative sample) would give `trunc(-0.4 * 32768) = -13107`: the source's
condition `0.5 + sample < 0` parses as `(0.5 + sample) < 0`, so the 32768
factor applies only below `-0.5`. -/
theorem wavSampleToInt_claim_false :
    wavSampleToInt (-2/5) ≠ wavSampleToIntSpecClaim (-2/5) := by decide

/-- C5 (amended): every sample is clamped to `[-1, 1]` and then truncated
after scaling by 32768 exactly when the clamped sample is below `-0.5`, and by
32767 otherwise. -/
theorem wavSampleToInt_eq_amended (sample : ℚ) :
    wavSampleToInt sample = wavSampleToIntAmended sample := by
  unfold wavSampleToInt wavSampleToIntAmended
  have h : ((1 : ℚ)/2 + max (-1) (min 1 sample) < 0) ↔
      (max (-1) (min 1 sample) < -(1/2 : ℚ)) := by
    constructor <;> intro h <;> linarith
  by_cases hc : (1 : ℚ)/2 + max (-1) (min 1 sample) < 0
  · rw [if_pos hc, if_pos (h.mp hc)]
  · rw [if_neg hc, if_neg (fun hx => hc (h.mpr hx))]

/-! ## String utilities shared by the parsers

JavaScript strings are modelled through `String.data : List Char`.  JS `trim`
and `\s` cover a slightly larger whitespace set than `Char.isWhitespace`
(`' '`, `'\t'`, `'\r'`, `'\n'`); the difference (form feed, NBSP, …) is
irrelevant to every input considered here.  Passes whose cursor can jump by a
data-dependent amount carry a fuel bounded by the input length. -/

/-- JS `String.prototype.split('\n')` (keeps empty pieces, as JS does). -/
def splitLinesGo : List Char → List Char → List String
  | [], acc => [String.mk acc.reverse]
  | '\n' :: rest, acc => String.mk acc.reverse :: splitLinesGo rest []
  | c :: rest, acc => splitLinesGo rest (c :: acc)

/-- JS `s.split('\n')`. -/
def splitLines (s : String) : List String := splitLinesGo s.data []

/-- JS `String.prototype.trim` on the character list. -/
def trimChars (cs : List Char) : List Char :=
  ((cs.dropWhile Char.isWhitespace).reverse.dropWhile Char.isWhitespace).reverse

/-- JS `s.trim()`. -/
def trimStr (s : String) : String := String.mk (trimChars s.data)

/-- JS `String.prototype.includes` for a fixed pattern. -/
def containsSeq (pat : List Char) : List Char → Bool
  | [] => pat.isEmpty
  | c :: rest => pat.isPrefixOf (c :: rest) || containsSeq pat rest

/-- `line.includes('-->')`. -/
def containsArrow (l : String) : Bool := containsSeq ['-', '-', '>'] l.data

/-- Numeric value of a decimal digit character. -/
def digitVal (c : Char) : Nat := c.toNat - 48

/-- Read exactly `n` decimal digits (the regex atom `\d{n}`), accumulating
their value; fails if a non-digit or the end of input intervenes. -/
def readDigits : Nat → Nat → List Char → Option (Nat × List Char)
  | 0, acc, cs => some (acc, cs)
  | _ + 1, _, [] => none
  | n + 1, acc, c :: cs =>
    if c.isDigit then readDigits n (acc * 10 + digitVal c) cs else none

namespace Vtt

/-! ## VTT caption parser (src/server/transcriptApi.ts:23-153) -/

/-- One parsed caption segment (`TranscriptItem` in transcriptApi.ts). -/
structure TranscriptItem where
  text : String
  start : ℚ
  duration : ℚ
  deriving DecidableEq, Inhabited

/-- The regex atom `\d{2}:\d{2}:\d{2}\.\d{3}` combined with
`parseTimestamp` (transcriptApi.ts:98-104): reads one `HH:MM:SS.mmm`
timestamp and returns `h*3600 + m*60 + s + ms/1000` seconds together with the
rest of the input. -/
def readVttTime (cs : List Char) : Option (ℚ × List Char) :=
  match readDigits 2 0 cs with
  | some (h, ':' :: cs1) =>
    match readDigits 2 0 cs1 with
    | some (m, ':' :: cs2) =>
      match readDigits 2 0 cs2 with
      | some (s, '.' :: cs3) =>
        match readDigits 3 0 cs3 with
        | some (ms, cs4) => some (((h * 3600 + m * 60 + s : ℕ) : ℚ) + (ms : ℚ) / 1000, cs4)
        | none => none
      | _ => none
    | _ => none
  | _ => none

/-- The search for `(\d{2}:\d{2}:\d{2}\.\d{3})\s*-->\s*(\d{2}:…)` anywhere in
a line (transcriptApi.ts:37): like a JS regex `match`, tries every start
position from the left and returns the two captured timestamps. -/
def findCueTiming : List Char → Option (ℚ × ℚ)
  | [] => none
  | c :: rest =>
    match readVttTime (c :: rest) with
    | some (t1, cs1) =>
      match cs1.dropWhile Char.isWhitespace with
      | '-' :: '-' :: '>' :: cs2 =>
        match readVttTime (cs2.dropWhile Char.isWhitespace) with
        | some (t2, _) => some (t1, t2)
        | none => findCueTiming rest
      | _ => findCueTiming rest
    | none => findCueTiming rest

/-- The test `/<\d{2}:\d{2}:\d{2}\.\d{3}>/.test(l)` (transcriptApi.ts:68). -/
def hasTimingTag : List Char → Bool
  | [] => false
  | '<' :: rest =>
    match readVttTime rest with
    | some (_, '>' :: _) => true
    | _ => hasTimingTag rest
  | _ :: rest => hasTimingTag rest

/-- `.replace(/<\d{2}:\d{2}:\d{2}\.\d{3}>/g, '')`. -/
def stripTimingTags : Nat → List Char → List Char
  | 0, cs => cs
  | _ + 1, [] => []
  | fuel + 1, '<' :: rest =>
    match readVttTime rest with
    | some (_, '>' :: rest2) => stripTimingTags fuel rest2
    | _ => '<' :: stripTimingTags fuel rest
  | fuel + 1, c :: rest => c :: stripTimingTags fuel rest

/-- `.replace(/<\/?c[^>]*>/g, '')`. -/
def stripCTags : Nat → List Char → List Char
  | 0, cs => cs
  | _ + 1, [] => []
  | fuel + 1, '<' :: rest =>
    match (match rest with | '/' :: r => r | _ => rest) with
    | 'c' :: rest2 =>
      match rest2.dropWhile (fun ch => ch != '>') with
      | '>' :: rest3 => stripCTags fuel rest3
      | _ => '<' :: stripCTags fuel rest
    | _ => '<' :: stripCTags fuel rest
  | fuel + 1, c :: rest => c :: stripCTags fuel rest

/-- `.replace(/<[^>]+>/g, '')`. -/
def stripHtmlTags : Nat → List Char → List Char
  | 0, cs => cs
  | _ + 1, [] => []
  | fuel + 1, '<' :: rest =>
    match rest.takeWhile (fun ch => ch != '>'), rest.dropWhile (fun ch => ch != '>') with
    | _ :: _, '>' :: rest2 => stripHtmlTags fuel rest2
    | _, _ => '<' :: stripHtmlTags fuel rest
  | fuel + 1, c :: rest => c :: stripHtmlTags fuel rest

/-- JS `String.prototype.replaceAll` for a fixed non-empty pattern
(left-to-right, non-overlapping). -/
def replaceAll (pat rep : List Char) : Nat → List Char → List Char
  | 0, cs => cs
  | _ + 1, [] => []
  | fuel + 1, c :: rest =>
    if pat.isPrefixOf (c :: rest) then
      rep ++ replaceAll pat rep fuel (List.drop (pat.length - 1) rest)
    else c :: replaceAll pat rep fuel rest

/-- `.replace(/\s+/g, ' ')`. -/
def collapseWs : Nat → List Char → List Char
  | 0, cs => cs
  | _ + 1, [] => []
  | fuel + 1, c :: rest =>
    if c.isWhitespace then ' ' :: collapseWs fuel (rest.dropWhile Char.isWhitespace)
    else c :: collapseWs fuel rest

/-- `cleanVttText` (transcriptApi.ts:107-125): strip timing tags, `<c>` tags
and remaining markup, decode the six HTML entities, collapse whitespace,
trim.  No pass lengthens its input and every step consumes at least one input
character, so the original length bounds the fuel of every pass. -/
def cleanVttText (text : String) : String :=
  let n := text.data.length
  String.mk (trimChars (collapseWs n (
    replaceAll "&nbsp;".data " ".data n (
    replaceAll "&#39;".data [Char.ofNat 39] n (
    replaceAll "&quot;".data [Char.ofNat 34] n (
    replaceAll "&gt;".data ['>'] n (
    replaceAll "&lt;".data ['<'] n (
    replaceAll "&amp;".data ['&'] n (
    stripHtmlTags n (stripCTags n (stripTimingTags n text.data)))))))))))

/-- Loop-control predicate for the text lines of one cue
(transcriptApi.ts:48,57): `lines[i].trim() !== '' && !lines[i].includes('-->')`. -/
def cueTextLine (l : String) : Bool := !(trimChars l.data).isEmpty && !containsArrow l

/-- Selection of the authoritative text line of a cue
(transcriptApi.ts:65-77): with two or more lines, the first line carrying a
timing tag, else the last line; with one line, that line; with none, `""`. -/
def chooseCueText (textLines : List String) : String :=
  if 2 ≤ textLines.length then
    match textLines.find? (fun l => hasTimingTag l.data) with
    | some l => l
    | none => textLines.getLast?.getD ""
  else
    match textLines with
    | [t] => t
    | _ => ""

/-- The cue loop of `parseVtt` (transcriptApi.ts:33-91).  One fuel unit per
loop iteration; every iteration consumes at least one line, so the number of
lines bounds the fuel. -/
def parseVttGo : Nat → List String → List TranscriptItem
  | 0, _ => []
  | _ + 1, [] => []
  | fuel + 1, l :: rest =>
    match findCueTiming (trimChars l.data) with
    | some (startTime, endTime) =>
      if endTime - startTime < 1/20 then
        -- tiny-duration cue: drop it and its text lines (the 0.05 s echo filter)
        parseVttGo fuel (rest.dropWhile cueTextLine)
      else
        if 0 < (cleanVttText (chooseCueText (rest.takeWhile cueTextLine))).length then
          { text := cleanVttText (chooseCueText (rest.takeWhile cueTextLine)),
            start := startTime,
            duration := endTime - startTime } :: parseVttGo fuel (rest.dropWhile cueTextLine)
        else
          parseVttGo fuel (rest.dropWhile cueTextLine)
    | none => parseVttGo fuel rest

/-- The cue-collection pass of `parseVtt`, before the sentence merge:
header skip (transcriptApi.ts:29-31) followed by the cue loop. -/
def parseVttRaw (vttContent : String) : List TranscriptItem :=
  parseVttGo (splitLines vttContent).length
    ((splitLines vttContent).dropWhile (fun l => !containsArrow l))

/-- `/[.!?]$/.test(text)` (transcriptApi.ts:139). -/
def endsWithSentencePunct (t : String) : Bool :=
  match t.data.getLast? with
  | some c => c == '.' || c == '!' || c == '?'
  | none => false

/-- The fold of `mergeSegments` (transcriptApi.ts:134-150) with the running
`current` segment made explicit. -/
def mergeGo : TranscriptItem → List TranscriptItem → List TranscriptItem
  | current, [] => [current]
  | current, seg :: rest =>
    if endsWithSentencePunct current.text = false ∧
        (current.text ++ " " ++ seg.text).length < 200 ∧
        seg.start - (current.start + current.duration) < 2 then
      mergeGo { current with
                text := current.text ++ " " ++ seg.text,
                duration := (seg.start + seg.duration) - current.start } rest
    else
      current :: mergeGo seg rest

/-- `mergeSegments` (transcriptApi.ts:128-153). -/
def mergeSegments : List TranscriptItem → List TranscriptItem
  | [] => []
  | first :: rest => mergeGo first rest

/-- `parseVtt` (transcriptApi.ts:23-95): cue collection followed by the
sentence merge. -/
def parseVtt (vttContent : String) : List TranscriptItem :=
  mergeSegments (parseVttRaw vttContent)

end Vtt

/-! ## Theorems for claims C2 and C7 -/

/-- Helper: a string with a space glued in the middle is never empty. -/
theorem append_space_ne_empty (a b : String) : a ++ " " ++ b ≠ "" := by
  intro h
  have hl := congrArg String.length h
  rw [String.length_append, String.length_append] at hl
  have h1 : (" " : String).length = 1 := rfl
  have h2 : ("" : String).length = 0 := rfl
  rw [h1, h2] at hl
  omega

/-- Helper: every segment produced by the cue loop has non-empty text and
duration at least the 0.05 s echo threshold. -/
theorem parseVttGo_mem (fuel : Nat) (lines : List String) :
    ∀ seg ∈ Vtt.parseVttGo fuel lines, seg.text ≠ "" ∧ 1/20 ≤ seg.duration := by
  induction fuel generalizing lines with
  | zero => intro seg h; simp [Vtt.parseVttGo] at h
  | succ fuel ih =>
    intro seg h
    match lines with
    | [] => simp [Vtt.parseVttGo] at h
    | l :: rest =>
      rw [Vtt.parseVttGo] at h
      split at h
      · split at h
        · exact ih _ seg h
        · split at h
          · rcases List.mem_cons.mp h with rfl | hmem
            · rename_i hdur htext
              refine ⟨?_, ?_⟩
              · show Vtt.cleanVttText (Vtt.chooseCueText (rest.takeWhile Vtt.cueTextLine)) ≠ ""
                intro hc
                rw [hc] at htext
                exact absurd htext (by decide)
              · show (1 : ℚ)/20 ≤ _ - _
                exact le_of_not_lt hdur
            · exact ih _ seg hmem
          · exact ih _ seg h
      · exact ih _ seg h

/-- Helper: the merge fold preserves non-empty text. -/
theorem mergeGo_text (current : Vtt.TranscriptItem) (rest : List Vtt.TranscriptItem)
    (hc : current.text ≠ "") (hr : ∀ x ∈ rest, x.text ≠ "") :
    ∀ x ∈ Vtt.mergeGo current rest, x.text ≠ "" := by
  induction rest generalizing current with
  | nil =>
    intro x hx
    simp [Vtt.mergeGo] at hx
    subst hx
    exact hc
  | cons seg rest ih =>
    intro x hx
    rw [Vtt.mergeGo] at hx
    split at hx
    · exact ih _ (append_space_ne_empty _ _) (fun y hy => hr y (List.mem_cons_of_mem _ hy)) x hx
    · rcases List.mem_cons.mp hx with rfl | hx
      · exact hc
      · exact ih _ (hr seg (List.mem_cons_self _ _)) (fun y hy => hr y (List.mem_cons_of_mem _ hy)) x hx

/-- Helper: on a start-sorted input with positive durations, the merge fold
keeps durations positive, keeps every output at or after the running
segment's start, and emits a start-sorted list. -/
theorem mergeGo_invariants (rest : List Vtt.TranscriptItem) :
    ∀ current : Vtt.TranscriptItem, 0 < current.duration →
    (∀ x ∈ rest, 0 < x.duration) →
    List.Pairwise (fun a b => a.start ≤ b.start) (current :: rest) →
    (∀ x ∈ Vtt.mergeGo current rest, 0 < x.duration ∧ current.start ≤ x.start) ∧
      List.Pairwise (fun a b => a.start ≤ b.start) (Vtt.mergeGo current rest) := by
  induction rest with
  | nil =>
    intro current hd _ _
    constructor
    · intro x hx
      simp [Vtt.mergeGo] at hx
      subst hx
      exact ⟨hd, le_refl _⟩
    · simp [Vtt.mergeGo]
  | cons seg rest ih =>
    intro current hd hrd hp
    have hcs : current.start ≤ seg.start := (List.pairwise_cons.mp hp).1 seg (List.mem_cons_self _ _)
    have hsegd : 0 < seg.duration := hrd seg (List.mem_cons_self _ _)
    have hrd' : ∀ x ∈ rest, 0 < x.duration := fun x hx => hrd x (List.mem_cons_of_mem _ hx)
    rw [Vtt.mergeGo]
    split
    · -- merge: the running segment keeps its start and spans to the new end
      have hd' : 0 < (seg.start + seg.duration) - current.start := by linarith
      have hp' : List.Pairwise (fun a b => a.start ≤ b.start)
          ({ current with
             text := current.text ++ " " ++ seg.text,
             duration := (seg.start + seg.duration) - current.start } :: rest) := by
        rw [List.pairwise_cons]
        exact ⟨fun y hy => (List.pairwise_cons.mp hp).1 y (List.mem_cons_of_mem _ hy),
          ((List.pairwise_cons.mp (List.pairwise_cons.mp hp).2).2)⟩
      have := ih _ hd' hrd' hp'
      exact ⟨fun x hx => ⟨(this.1 x hx).1, (this.1 x hx).2⟩, this.2⟩
    · -- push: `current` is emitted and `seg` becomes the running segment
      have hp' : List.Pairwise (fun a b => a.start ≤ b.start) (seg :: rest) :=
        (List.pairwise_cons.mp hp).2
      have := ih seg hsegd hrd' hp'
      constructor
      · intro x hx
        rcases List.mem_cons.mp hx with rfl | hx
        · exact ⟨hd, le_refl _⟩
        · exact ⟨(this.1 x hx).1, le_trans hcs (this.1 x hx).2⟩
      · rw [List.pairwise_cons]
        exact ⟨fun y hy => le_trans hcs (this.1 y hy).2, this.2⟩

/-- C2: for any caption stream, every segment emitted by `parseVtt` has
non-empty text; and provided the surviving cues appear in non-decreasing
start order (the pre-merge list is start-sorted), every emitted segment also
has strictly positive duration and the merged list is start-sorted.  (For
streams whose cues are out of order the duration/sortedness part fails, see
the counterexample.) -/
theorem parseVtt_invariants (s : String) :
    (∀ seg ∈ Vtt.parseVtt s, seg.text ≠ "") ∧
    (List.Pairwise (fun a b => a.start ≤ b.start) (Vtt.parseVttRaw s) →
      (∀ seg ∈ Vtt.parseVtt s, 0 < seg.duration) ∧
      List.Pairwise (fun a b => a.start ≤ b.start) (Vtt.parseVtt s)) := by
  have hraw : ∀ seg ∈ Vtt.parseVttRaw s, seg.text ≠ "" ∧ 1/20 ≤ seg.duration :=
    parseVttGo_mem (splitLines s).length
      ((splitLines s).dropWhile (fun l => !containsArrow l))
  unfold Vtt.parseVtt
  cases hmatch : Vtt.parseVttRaw s with
  | nil =>
    constructor
    · intro seg hseg
      simp [Vtt.mergeSegments] at hseg
    · intro _
      constructor
      · intro seg hseg
        simp [Vtt.mergeSegments] at hseg
      · simp [Vtt.mergeSegments]
  | cons first rest =>
    rw [hmatch] at hraw
    have hfirst := hraw first (List.mem_cons_self _ _)
    constructor
    · show ∀ seg ∈ Vtt.mergeSegments (first :: rest), seg.text ≠ ""
      rw [Vtt.mergeSegments]
      exact mergeGo_text first rest hfirst.1 (fun x hx => (hraw x (List.mem_cons_of_mem _ hx)).1)
    · intro hsorted
      rw [Vtt.mergeSegments]
      have hd : 0 < first.duration := lt_of_lt_of_le (by norm_num) hfirst.2
      have hrd : ∀ x ∈ rest, 0 < x.duration := fun x hx =>
        lt_of_lt_of_le (by norm_num) (hraw x (List.mem_cons_of_mem _ hx)).2
      have := mergeGo_invariants rest first hd hrd hsorted
      exact ⟨fun seg hseg => (this.1 seg hseg).1, this.2⟩

/-- C2 counterexample: a caption stream whose two cues appear with decreasing
start times (5 s cue before 1 s cue).  `parseVtt` merges them into a single
segment `{text := "B A", start := 5, duration := -3}` — a segment with
negative duration, refuting the claim for arbitrary caption streams. -/
theorem parseVtt_unsorted_violation :
    ∃ seg ∈ Vtt.parseVtt "00:00:05.000 --> 00:00:06.000\nB\n\n00:00:01.000 --> 00:00:02.000\nA",
      seg.duration < 0 := by decide

/-- C2 witness: a well-formed two-cue stream; both invariants hold. -/
theorem parseVtt_invariants_witness :
    (Vtt.parseVtt "WEBVTT\n\n00:00:01.000 --> 00:00:02.500\nHi there.\n\n00:00:02.500 --> 00:00:04.000\nBye."
        = [⟨"Hi there.", 1, 3/2⟩, ⟨"Bye.", 5/2, 3/2⟩]) ∧
    (∀ seg ∈ Vtt.parseVtt "WEBVTT\n\n00:00:01.000 --> 00:00:02.500\nHi there.\n\n00:00:02.500 --> 00:00:04.000\nBye.",
      0 < seg.duration) ∧
    List.Pairwise (fun a b => a.start ≤ b.start)
      (Vtt.parseVtt "WEBVTT\n\n00:00:01.000 --> 00:00:02.500\nHi there.\n\n00:00:02.500 --> 00:00:04.000\nBye.") :=
  ⟨by decide,
   (parseVtt_invariants "WEBVTT\n\n00:00:01.000 --> 00:00:02.500\nHi there.\n\n00:00:02.500 --> 00:00:04.000\nBye.").2
     (by decide)⟩

/-- C7 counterexample: on the spec's example stream the parser does *not*
return the segment `{start: 1.5, duration: 2.5, text: "Hello world"}`: the
authoritative text line of the surviving cue is the timing-tagged line alone
(`"<00:00:02.000><c> world"`), which cleans to `"world"`, not
`"Hello world"`. -/
theorem parseVtt_example_claim_false :
    Vtt.parseVtt "00:00:01.000 --> 00:00:01.030\nHello\n00:00:01.500 --> 00:00:04.000\nHello\n<00:00:02.000><c> world"
      ≠ [⟨"Hello world", 3/2, 5/2⟩] := by decide

/-- C7 (amended): on the spec's example stream the 30 ms first cue is
discarded as an echo artifact and the parser returns exactly one segment
`{start: 1.5, duration: 2.5, text: "world"}`. -/
theorem parseVtt_example :
    Vtt.parseVtt "00:00:01.000 --> 00:00:01.030\nHello\n00:00:01.500 --> 00:00:04.000\nHello\n<00:00:02.000><c> world"
      = [⟨"world", 3/2, 5/2⟩] := by decide

/-! ## Shared segment type (src/types.ts)

`TranscriptSegment` from types.ts, restricted to the fields the core under
verification reads or writes (`id`, `text`, `start`, `duration`,
`translation`); the UI-owned optional fields are omitted. -/

structure TranscriptSegment where
  id : String
  text : String
  start : ℚ
  duration : ℚ
  translation : Option String := none
  deriving DecidableEq, Inhabited

namespace Tx

/-! ## Free-text transcript parser (src/services/geminiService.ts:735-889) -/

/-- The dash alternatives `[-–—]` of the timestamp patterns
(hyphen, en dash U+2013, em dash U+2014). -/
def isDash (c : Char) : Bool :=
  c == '-' || c == Char.ofNat 0x2013 || c == Char.ofNat 0x2014

/-- The regex core `(\d{1,2}):` — one or two digits followed by a colon
(greedy with backtracking: two digits are taken when the third character is a
colon, else one digit when the second is). -/
def readHourMin : List Char → Option (Nat × List Char)
  | a :: b :: c :: rest =>
    if a.isDigit && b.isDigit && c == ':' then some (digitVal a * 10 + digitVal b, rest)
    else if a.isDigit && b == ':' then some (digitVal a, c :: rest)
    else none
  | [a, b] => if a.isDigit && b == ':' then some (digitVal a, []) else none
  | _ => none

/-- The shared core `(\d{1,2}):(\d{2})(?::(\d{2}))?` of the three timestamp
patterns (geminiService.ts:739-743): first capture, second capture, optional
third capture, rest of input. -/
def readClock (cs : List Char) : Option (Nat × Nat × Option Nat × List Char) :=
  match readHourMin cs with
  | none => none
  | some (first, rest) =>
    match readDigits 2 0 rest with
    | none => none
    | some (second, rest2) =>
      match rest2 with
      | ':' :: r =>
        match readDigits 2 0 r with
        | some (third, r2) => some (first, second, some third, r2)
        | none => some (first, second, none, rest2)
      | _ => some (first, second, none, rest2)

/-- Decoding of the captures (geminiService.ts:754-757): with a third capture
the three groups are hours, minutes, seconds; without, minutes and seconds. -/
def clockSeconds : Nat × Nat × Option Nat → Nat
  | (first, second, some third) => first * 3600 + second * 60 + third
  | (first, second, none) => first * 60 + second

/-- The trailing `\s*[-–—]?\s*` of every timestamp pattern. -/
def skipDashSuffix (cs : List Char) : List Char :=
  match cs.dropWhile Char.isWhitespace with
  | c :: r =>
    if isDash c then r.dropWhile Char.isWhitespace
    else (cs.dropWhile Char.isWhitespace)
  | [] => []

/-- Pattern 1, `/^\[?(\d{1,2}):(\d{2})(?::(\d{2}))?\]?\s*[-–—]?\s*/`
(both brackets independently optional). -/
def tryBracketTs (cs : List Char) : Option (Nat × List Char) :=
  match readClock (match cs with | '[' :: r => r | _ => cs) with
  | none => none
  | some (f, s, t, rest) =>
    some (clockSeconds (f, s, t),
      skipDashSuffix (match rest with | ']' :: r => r | _ => rest))

/-- Pattern 2, `/^\((\d{1,2}):(\d{2})(?::(\d{2}))?\)\s*[-–—]?\s*/`. -/
def tryParenTs (cs : List Char) : Option (Nat × List Char) :=
  match cs with
  | '(' :: r =>
    match readClock r with
    | none => none
    | some (f, s, t, rest) =>
      match rest with
      | ')' :: rest1 => some (clockSeconds (f, s, t), skipDashSuffix rest1)
      | _ => none
  | _ => none

/-- Pattern 3, `/^(\d{1,2}):(\d{2})(?::(\d{2}))?\s*[-–—]?\s*/`. -/
def tryBareTs (cs : List Char) : Option (Nat × List Char) :=
  match readClock cs with
  | none => none
  | some (f, s, t, rest) => some (clockSeconds (f, s, t), skipDashSuffix rest)

/-- `parseTimestamp(line)` (geminiService.ts:750-763): the three patterns in
order; on a match the matched prefix is removed and the remainder trimmed,
else the whole line is trimmed and no timestamp is reported. -/
def parseTimestamp (line : String) : Option ℚ × String :=
  match tryBracketTs line.data with
  | some (ts, rest) => (some (ts : ℚ), String.mk (trimChars rest))
  | none =>
    match tryParenTs line.data with
    | some (ts, rest) => (some (ts : ℚ), String.mk (trimChars rest))
    | none =>
      match tryBareTs line.data with
      | some (ts, rest) => (some (ts : ℚ), String.mk (trimChars rest))
      | none => (none, String.mk (trimChars line.data))

/-- `[.!?]` -/
def isSentencePunct (c : Char) : Bool := c == '.' || c == '!' || c == '?'

/-- The global matches of `/[^.!?]+[.!?]+|[^.!?]+$/g` (geminiService.ts:767):
repeatedly skip unmatched punctuation, then take a maximal non-punctuation
run together with the punctuation run that follows it.  Each iteration
consumes at least one character, so the input length bounds the fuel. -/
def sentenceChunks : Nat → List Char → List (List Char)
  | 0, _ => []
  | fuel + 1, cs =>
    match cs.dropWhile isSentencePunct with
    | [] => []
    | cs1 =>
      (cs1.takeWhile (fun c => !isSentencePunct c) ++
        (cs1.dropWhile (fun c => !isSentencePunct c)).takeWhile isSentencePunct) ::
      sentenceChunks fuel ((cs1.dropWhile (fun c => !isSentencePunct c)).dropWhile isSentencePunct)

/-- `splitIntoSentences` (geminiService.ts:765-769): `text.match(...) ||
[text]`, then trim each piece and drop the empty ones. -/
def splitIntoSentences (text : String) : List String :=
  match sentenceChunks text.data.length text.data with
  | [] => ([String.mk (trimChars text.data)]).filter (fun s => decide (0 < s.length))
  | chunks =>
    (chunks.map (fun c => String.mk (trimChars c))).filter (fun s => decide (0 < s.length))

/-- Number of maximal whitespace runs in a character list. -/
def wsRuns : List Char → Bool → Nat
  | [], _ => 0
  | c :: rest, inRun =>
    if c.isWhitespace then (if inRun then wsRuns rest true else 1 + wsRuns rest true)
    else wsRuns rest false

/-- `sentence.split(/\s+/).length` (geminiService.ts:814): one more than the
number of maximal whitespace runs. -/
def wordCount (s : String) : Nat := wsRuns s.data false + 1

/-- JS `Array.prototype.join(' ')`. -/
def joinSpace : List String → String
  | [] => ""
  | [s] => s
  | s :: rest => s ++ " " ++ joinSpace rest

/-- The sentence loop of the timestamp-free branch (geminiService.ts:813-825):
synthetic timestamps at `max(⌈wordCount * 0.3⌉, 2)` seconds per sentence.
(`⌈·⌉` over `ℚ` is exact; IEEE evaluation of `wordCount * 0.3` agrees for any
realistic word count.) -/
def sentencesGo : List String → Nat → ℚ → List TranscriptSegment
  | [], _, _ => []
  | sentence :: rest, idx, currentTime =>
    { id := "seg-" ++ toString idx
      text := sentence
      start := currentTime
      duration := ((max ⌈(wordCount sentence : ℚ) * 3 / 10⌉ 2 : ℤ) : ℚ)
      translation := none } ::
    sentencesGo rest (idx + 1)
      (currentTime + ((max ⌈(wordCount sentence : ℚ) * 3 / 10⌉ 2 : ℤ) : ℚ))

/-- Mode 2 of `parseTranscriptText` (geminiService.ts:805-826): no timestamps
— join the line texts, split into sentences, assign synthetic timestamps. -/
def withoutTimestampsMode (parsedLines : List (Option ℚ × String)) : List TranscriptSegment :=
  sentencesGo (splitIntoSentences (joinSpace (parsedLines.map Prod.snd))) 0 0

/-- Mode 1 of `parseTranscriptText` (geminiService.ts:784-804): timestamps
used directly; a line without one continues from the running clock; duration
is the gap to the next line's timestamp (default `+5`), floored at 1 s. -/
def timestampedGo : List (Option ℚ × String) → Nat → ℚ → List TranscriptSegment
  | [], _, _ => []
  | (tsOpt, text) :: rest, i, lastTimestamp =>
    if text = "" then timestampedGo rest (i + 1) lastTimestamp
    else
      let currentTimestamp := tsOpt.getD lastTimestamp
      let nextTimestamp := match rest.head? with
        | some (some t, _) => t
        | _ => currentTimestamp + 5
      let duration := max (nextTimestamp - currentTimestamp) 1
      { id := "seg-" ++ toString i, text := text, start := currentTimestamp,
        duration := duration, translation := none } ::
      timestampedGo rest (i + 1) (currentTimestamp + duration)

/-- Mode 1 wrapper. -/
def withTimestampsMode (parsedLines : List (Option ℚ × String)) : List TranscriptSegment :=
  timestampedGo parsedLines 0 0

/-- `rawText.split('\n').filter(line => line.trim().length > 0)`. -/
def nonEmptyLines (rawText : String) : List String :=
  (splitLines rawText).filter (fun line => decide (0 < (trimStr line).length))

/-- `parseTranscriptText` (geminiService.ts:771-829).  The mode selector is
`parsedLines.some(p => p.timestamp !== null)`: a single timestamped line puts
the whole input into mode 1. -/
def parseTranscriptText (rawText : String) : List TranscriptSegment :=
  if (nonEmptyLines rawText).isEmpty then []
  else if ((nonEmptyLines rawText).map parseTimestamp).any (fun p => p.1.isSome) then
    withTimestampsMode ((nonEmptyLines rawText).map parseTimestamp)
  else
    withoutTimestampsMode ((nonEmptyLines rawText).map parseTimestamp)

/-- The `hasTimestamps` flag computed by `detectTranscriptFormat`
(geminiService.ts:863): `timestampedLines.length > lines.length * 0.5`,
i.e. strictly more than half of the non-empty lines carry a timestamp. -/
def detectHasTimestamps (text : String) : Bool :=
  decide ((((nonEmptyLines text).length : ℚ) * (1/2) <
    ((((nonEmptyLines text).map parseTimestamp).filter (fun p => p.1.isSome)).length : ℚ)))

end Tx

/-! ## Theorems for claim C6 -/

/-- C6 counterexample: in the input `"0:10 hello\nworld today\nmore text
here"` only one of the three non-empty lines carries a timestamp — fewer
than half — yet `parseTranscriptText` does *not* treat the input as
timestamp-free: its output is the timestamped per-line parse (starts 10, 15,
20), not the sentence-split parse. -/
theorem parseTranscriptText_half_heuristic_false :
    (2 * (((Tx.nonEmptyLines "0:10 hello\nworld today\nmore text here").map Tx.parseTimestamp).filter
        (fun p => p.1.isSome)).length <
      (Tx.nonEmptyLines "0:10 hello\nworld today\nmore text here").length) ∧
    Tx.parseTranscriptText "0:10 hello\nworld today\nmore text here" ≠
      Tx.withoutTimestampsMode
        ((Tx.nonEmptyLines "0:10 hello\nworld today\nmore text here").map Tx.parseTimestamp) := by
  constructor
  · decide
  · decide

/-- C6 (amended): `parseTranscriptText` treats the whole input as
timestamp-free exactly when *no* non-empty line carries a timestamp; a single
timestamped line already selects the timestamped per-line mode.  The
fewer-than-half heuristic exists only in `detectTranscriptFormat`, whose
`hasTimestamps` flag moreover requires *strictly more* than half of the
non-empty lines to carry a timestamp. -/
theorem parseTranscriptText_mode (raw : String) (h : Tx.nonEmptyLines raw ≠ []) :
    ((∀ l ∈ Tx.nonEmptyLines raw, (Tx.parseTimestamp l).1 = none) →
      Tx.parseTranscriptText raw =
        Tx.withoutTimestampsMode ((Tx.nonEmptyLines raw).map Tx.parseTimestamp)) ∧
    ((∃ l ∈ Tx.nonEmptyLines raw, (Tx.parseTimestamp l).1 ≠ none) →
      Tx.parseTranscriptText raw =
        Tx.withTimestampsMode ((Tx.nonEmptyLines raw).map Tx.parseTimestamp)) ∧
    (Tx.detectHasTimestamps raw = true ↔
      (Tx.nonEmptyLines raw).length <
        2 * (((Tx.nonEmptyLines raw).map Tx.parseTimestamp).filter (fun p => p.1.isSome)).length) := by
  have hne : ¬((Tx.nonEmptyLines raw).isEmpty = true) := by
    simpa [List.isEmpty_iff] using h
  refine ⟨?_, ?_, ?_⟩
  · intro hall
    have hany : ((Tx.nonEmptyLines raw).map Tx.parseTimestamp).any (fun p => p.1.isSome) = false := by
      rw [List.any_eq_false]
      intro p hp
      rcases List.mem_map.mp hp with ⟨l, hl, rfl⟩
      simp [hall l hl]
    unfold Tx.parseTranscriptText
    rw [if_neg hne, if_neg (by simp [hany])]
  · intro hex
    have hany : ((Tx.nonEmptyLines raw).map Tx.parseTimestamp).any (fun p => p.1.isSome) = true := by
      rw [List.any_eq_true]
      rcases hex with ⟨l, hl, hts⟩
      exact ⟨Tx.parseTimestamp l, List.mem_map.mpr ⟨l, hl, rfl⟩, by simpa [Option.isSome_iff_ne_none] using hts⟩
    unfold Tx.parseTranscriptText
    rw [if_neg hne, if_pos (by simp [hany])]
  · unfold Tx.detectHasTimestamps
    rw [decide_eq_true_eq]
    constructor
    · intro hlt
      by_contra hc
      push_neg at hc
      have hcast : ((2 * (((Tx.nonEmptyLines raw).map Tx.parseTimestamp).filter
          (fun p => p.1.isSome)).length : ℕ) : ℚ) ≤ (((Tx.nonEmptyLines raw).length : ℕ) : ℚ) := by
        exact_mod_cast hc
      push_cast at hcast
      linarith
    · intro hlt
      have hcast : (((Tx.nonEmptyLines raw).length : ℕ) : ℚ) <
          ((2 * (((Tx.nonEmptyLines raw).map Tx.parseTimestamp).filter
            (fun p => p.1.isSome)).length : ℕ) : ℚ) := by
        exact_mod_cast hlt
      push_cast at hcast
      linarith

/-- C6 witness: on the counterexample input (one timestamped line of three)
the parser selects the timestamped mode and `detectTranscriptFormat` reports
no timestamps. -/
theorem parseTranscriptText_mode_witness :
    ((∀ l ∈ Tx.nonEmptyLines "0:10 hello\nworld today\nmore text here",
        (Tx.parseTimestamp l).1 = none) →
      Tx.parseTranscriptText "0:10 hello\nworld today\nmore text here" =
        Tx.withoutTimestampsMode
          ((Tx.nonEmptyLines "0:10 hello\nworld today\nmore text here").map Tx.parseTimestamp)) ∧
    ((∃ l ∈ Tx.nonEmptyLines "0:10 hello\nworld today\nmore text here",
        (Tx.parseTimestamp l).1 ≠ none) →
      Tx.parseTranscriptText "0:10 hello\nworld today\nmore text here" =
        Tx.withTimestampsMode
          ((Tx.nonEmptyLines "0:10 hello\nworld today\nmore text here").map Tx.parseTimestamp)) ∧
    (Tx.detectHasTimestamps "0:10 hello\nworld today\nmore text here" = true ↔
      (Tx.nonEmptyLines "0:10 hello\nworld today\nmore text here").length <
        2 * (((Tx.nonEmptyLines "0:10 hello\nworld today\nmore text here").map
          Tx.parseTimestamp).filter (fun p => p.1.isSome)).length) :=
  parseTranscriptText_mode "0:10 hello\nworld today\nmore text here" (by decide)

namespace Translate

/-! ## Batch translation orchestrator (src/services/geminiService.ts:241-528)

The external text-generation capability is abstracted at the boundary of
`requestBatchTranslations`: the n-th network call (calls are numbered in the
order they are issued; the two concurrent sub-batch calls of a split are
numbered left before right, which loses no generality for the universally
quantified statements below) either fails — timeout, throttling, transport
error, unparseable JSON, anything the `catch` sees — or yields the raw
translation array recovered from the response JSON before per-position
normalization. -/

def TRANSLATION_MAX_SEGMENTS_PER_BATCH : Nat := 20
def TRANSLATION_MAX_CHARS_PER_BATCH : Nat := 2200
def TRANSLATION_MAX_ATTEMPTS : Nat := 3
def TRANSLATION_FALLBACK_TEXT : String := "[Translation unavailable]"

/-- `IndexedSegment` (geminiService.ts:298-301): `{ index, segment }`. -/
abbrev IndexedSegment := Nat × TranscriptSegment

/-- The abstracted capability: call number ↦ failure or raw translations. -/
def Oracle := Nat → Except Unit (List (Option String))

/-- `normalizeTranslation` (geminiService.ts:272-276): a non-string (`none`)
or blank string is missing; anything else is trimmed. -/
def normalizeTranslation (v : Option String) : Option String :=
  match v with
  | none => none
  | some s => if trimStr s = "" then none else some (trimStr s)

/-- `requestBatchTranslations` (geminiService.ts:337-372) with the network
call and the JSON-shape tolerance of `parseTranslations` absorbed by the
oracle; the final realignment of `parseTranslations` (geminiService.ts:295)
is kept: exactly `batch.length` positions, each normalized, out-of-range
positions missing. -/
def requestBatchTranslations (oracle : Oracle) (ctr : Nat) (batch : List IndexedSegment) :
    Except Unit (List (Option String)) :=
  match oracle ctr with
  | .error e => .error e
  | .ok raw =>
    .ok ((List.range batch.length).map (fun i => normalizeTranslation (raw.getD i none)))

/-- The whole-batch retry loop of `translateBatchWithRecovery`
(geminiService.ts:379-391): up to `attempts` calls (the backoff sleeps have
no observable effect here), returning the first success together with the
next call number. -/
def attemptBatch (oracle : Oracle) (batch : List IndexedSegment) :
    Nat → Nat → Option (List (Option String)) × Nat
  | 0, ctr => (none, ctr)
  | n + 1, ctr =>
    match requestBatchTranslations oracle ctr batch with
    | .ok v => (some v, ctr + 1)
    | .error _ => attemptBatch oracle batch n (ctr + 1)

/-- `translateBatchWithRecovery` (geminiService.ts:374-409) with explicit
fuel: retries, then gives up on a single segment, else splits at
`Math.ceil(batch.length / 2)` and recurses on both halves.  Each level
strictly shrinks the batch, so `batch.length` bounds the recursion depth
(`translateBatchWithRecovery_terminates` below proves larger fuels change
nothing).  The source never reaches an empty batch (`buildTranslationBatches`
emits none and both halves of a split are non-empty); on `[]` the source
would recurse forever, the model returns `[]`. -/
def translateBatchGo (oracle : Oracle) : Nat → List IndexedSegment → Nat →
    List (Option String) × Nat
  | 0, batch, ctr => (batch.map (fun _ => none), ctr)
  | fuel + 1, batch, ctr =>
    match attemptBatch oracle batch TRANSLATION_MAX_ATTEMPTS ctr with
    | (some v, c) => (v, c)
    | (none, c) =>
      if batch.length = 1 then ([none], c)
      else if batch.length = 0 then ([], c)
      else
        match translateBatchGo oracle fuel (batch.take ((batch.length + 1) / 2)) c with
        | (leftTranslations, c1) =>
          match translateBatchGo oracle fuel (batch.drop ((batch.length + 1) / 2)) c1 with
          | (rightTranslations, c2) => (leftTranslations ++ rightTranslations, c2)

/-- `translateBatchWithRecovery` at its natural fuel. -/
def translateBatchWithRecovery (oracle : Oracle) (batch : List IndexedSegment) (ctr : Nat) :
    List (Option String) × Nat :=
  translateBatchGo oracle batch.length batch ctr

/-- `segment.text.length + 8` (geminiService.ts:316), the per-segment
character estimate. -/
def estimatedChars (s : TranscriptSegment) : Nat := s.text.length + 8

/-- The `forEach` of `buildTranslationBatches` (geminiService.ts:310-335) as
a recursion over the remaining segments: `idx` is the running original index,
`current`/`chars` the open batch and its estimate. -/
def buildGo : List TranscriptSegment → Nat → List IndexedSegment → Nat →
    List (List IndexedSegment)
  | [], _, current, _ => if current.isEmpty then [] else [current]
  | seg :: rest, idx, current, chars =>
    if current.length ≠ 0 ∧ (TRANSLATION_MAX_SEGMENTS_PER_BATCH ≤ current.length ∨
        TRANSLATION_MAX_CHARS_PER_BATCH < chars + estimatedChars seg) then
      current :: buildGo rest (idx + 1) [(idx, seg)] (estimatedChars seg)
    else
      buildGo rest (idx + 1) (current ++ [(idx, seg)]) (chars + estimatedChars seg)

/-- `buildTranslationBatches` (geminiService.ts:310-335). -/
def buildTranslationBatches (segments : List TranscriptSegment) :
    List (List IndexedSegment) :=
  buildGo segments 0 [] 0

/-- JS `x || y` for a string-or-null `x` (the empty string is falsy). -/
def jsOrElse (x y : Option String) : Option String :=
  match x with
  | some s => if s = "" then y else some s
  | none => y

/-- `translation || entry.segment.translation || TRANSLATION_FALLBACK_TEXT`
(geminiService.ts:498-499). -/
def resolveTranslation (translation existing : Option String) : String :=
  match jsOrElse translation existing with
  | some s => if s = "" then TRANSLATION_FALLBACK_TEXT else s
  | none => TRANSLATION_FALLBACK_TEXT

/-- The `batch.forEach` body of `translateSegments` (geminiService.ts:496-509):
stamp each entry's target position with its resolved translation and count
the fallbacks.  `translations[batchIndex]` is modelled by consuming the head
of the translation list at each step (an out-of-range read is `none`). -/
def applyBatch : List IndexedSegment → List (Option String) →
    List TranscriptSegment → Nat → List TranscriptSegment × Nat
  | [], _, ts, failed => (ts, failed)
  | (i, seg) :: entries, translations, ts, failed =>
    applyBatch entries (translations.drop 1)
      (ts.set i { seg with
        translation := some (resolveTranslation (translations.headD none) seg.translation) })
      (if resolveTranslation (translations.headD none) seg.translation =
          TRANSLATION_FALLBACK_TEXT then failed + 1 else failed)

/-- `TranslationProgress` (geminiService.ts:303-308). -/
structure TranslationProgress where
  completed : Nat
  total : Nat
  failed : Nat
  translatedSegments : List TranscriptSegment
  deriving DecidableEq, Inhabited

/-- The top-level batch loop of `translateSegments`
(geminiService.ts:493-518), also recording every `onProgress` snapshot. -/
def runBatches (oracle : Oracle) (total : Nat) :
    List (List IndexedSegment) → List TranscriptSegment → Nat → Nat → Nat →
    List TranscriptSegment × List TranslationProgress
  | [], ts, _, _, _ => (ts, [])
  | batch :: rest, ts, completed, failed, ctr =>
    match translateBatchWithRecovery oracle batch ctr with
    | (translations, ctr1) =>
      match applyBatch batch translations ts failed with
      | (ts1, failed1) =>
        match runBatches oracle total rest ts1 (completed + batch.length) failed1 ctr1 with
        | (finalTs, events) =>
          (finalTs,
            { completed := completed + batch.length, total := total,
              failed := failed1, translatedSegments := ts1 } :: events)

/-- `translateSegments` (geminiService.ts:480-528).  `clientOk` models
whether `getClient()` succeeds; its failure is the only throw inside the
`try` not already caught further down, and the `catch` stamps every segment
with the fallback sentinel.  The target language is absorbed by the oracle.
Returns the translated segments and the list of progress snapshots. -/
def translateSegments (clientOk : Bool) (oracle : Oracle)
    (segments : List TranscriptSegment) :
    List TranscriptSegment × List TranslationProgress :=
  if segments.isEmpty then ([], [])
  else if clientOk = false then
    (segments.map (fun seg => { seg with translation := some TRANSLATION_FALLBACK_TEXT }), [])
  else
    runBatches oracle segments.length (buildTranslationBatches segments) segments 0 0 0

/-- Total estimated characters of a batch. -/
def estSum (b : List IndexedSegment) : Nat := (b.map (fun p => estimatedChars p.2)).sum

/-! ## Theorems for claim C9 -/

/-- Helper: head of a snoc is the head when the list is non-empty. -/
theorem headI_append_single {α : Type} [Inhabited α] (l : List α) (x : α) (h : l ≠ []) :
    (l ++ [x]).headI = l.headI := by
  cases l with
  | nil => exact absurd rfl h
  | cons a t => rfl

/-- Helper: the batching fold satisfies the greedy-batching invariants. -/
theorem buildGo_spec (rest : List TranscriptSegment) :
    ∀ (idx : Nat) (current : List IndexedSegment) (chars : Nat),
    chars = estSum current →
    current.length ≤ 20 →
    (current.length ≤ 1 ∨ estSum current ≤ 2200) →
    (buildGo rest idx current chars).join = current ++ List.enumFrom idx rest ∧
    (∀ b ∈ buildGo rest idx current chars,
      b ≠ [] ∧ b.length ≤ 20 ∧ (b.length = 1 ∨ estSum b ≤ 2200)) ∧
    List.Chain' (fun b1 b2 => 20 ≤ b1.length ∨
      2200 < estSum b1 + estimatedChars b2.headI.2)
      (buildGo rest idx current chars) ∧
    (current ≠ [] → buildGo rest idx current chars ≠ [] ∧
      (buildGo rest idx current chars).headI.headI = current.headI) := by
  induction rest with
  | nil =>
    intro idx current chars h1 h2 h3
    by_cases hc : current.isEmpty
    · have hcur : current = [] := by simpa [List.isEmpty_iff] using hc
      subst hcur
      simp [buildGo]
    · have hne : current ≠ [] := by simpa [List.isEmpty_iff] using hc
      have hout : buildGo [] idx current chars = [current] := by
        simp [buildGo, hc]
      rw [hout]
      refine ⟨by simp, ?_, by simp, fun _ => ⟨by simp, rfl⟩⟩
      intro b hb
      rcases List.mem_singleton.mp hb with rfl
      refine ⟨hne, h2, ?_⟩
      rcases h3 with h3 | h3
      · left
        have : 0 < b.length := List.length_pos.mpr hne
        omega
      · right
        exact h3
  | cons seg rest ih =>
    intro idx current chars h1 h2 h3
    rw [buildGo]
    split
    · -- push branch: `current` is closed, the new batch starts with (idx, seg)
      rename_i hcond
      obtain ⟨hne0, hcap⟩ := hcond
      have hne : current ≠ [] := by
        intro h
        exact hne0 (by simp [h])
      have ihs := ih (idx + 1) [(idx, seg)] (estimatedChars seg)
        (by simp [estSum]) (by simp [TRANSLATION_MAX_SEGMENTS_PER_BATCH]) (Or.inl (by simp))
      obtain ⟨ihjoin, ihall, ihchain, ihhead⟩ := ihs
      have ihne := ihhead (by simp)
      refine ⟨?_, ?_, ?_, fun _ => ⟨by simp, rfl⟩⟩
      · have hjoin_cons : (current :: buildGo rest (idx + 1) [(idx, seg)] (estimatedChars seg)).join
            = current ++ (buildGo rest (idx + 1) [(idx, seg)] (estimatedChars seg)).join := rfl
        rw [hjoin_cons, ihjoin]
        rfl
      · intro b hb
        rcases List.mem_cons.mp hb with rfl | hb
        · refine ⟨hne, h2, ?_⟩
          rcases h3 with h3 | h3
          · left
            have : 0 < b.length := List.length_pos.mpr hne
            omega
          · right
            exact h3
        · exact ihall b hb
      · rw [List.chain'_cons']
        refine ⟨?_, ihchain⟩
        intro h hh
        have hhead : h.headI = (idx, seg) := by
          have := ihne.2
          rcases hgo : buildGo rest (idx + 1) [(idx, seg)] (estimatedChars seg) with _ | ⟨b0, bs⟩
          · exact absurd hgo ihne.1
          · rw [hgo] at hh this
            simp only [List.head?_cons, Option.mem_def, Option.some.injEq] at hh
            subst hh
            simpa using this
        rw [hhead]
        rcases hcap with hcap | hcap
        · exact Or.inl hcap
        · right
          rw [h1] at hcap
          exact hcap
    · -- extend branch: (idx, seg) joins the open batch
      rename_i hcond
      push_neg at hcond
      have hcases : current.length = 0 ∨
          (current.length < 20 ∧ chars + estimatedChars seg ≤ 2200) := by
        by_cases h0 : current.length = 0
        · exact Or.inl h0
        · obtain ⟨hlen20, hchars⟩ := hcond h0
          exact Or.inr ⟨hlen20, hchars⟩
      have hest : chars + estimatedChars seg = estSum (current ++ [(idx, seg)]) := by
        simp [estSum, h1]
      have hlen : (current ++ [(idx, seg)]).length ≤ 20 := by
        rcases hcases with h0 | ⟨hlt, _⟩ <;> simp <;> omega
      have hcap : (current ++ [(idx, seg)]).length ≤ 1 ∨ estSum (current ++ [(idx, seg)]) ≤ 2200 := by
        rcases hcases with h0 | ⟨_, hle⟩
        · left
          simp [List.length_eq_zero.mp h0]
        · right
          rw [← hest]
          exact hle
      have ihs := ih (idx + 1) (current ++ [(idx, seg)]) (chars + estimatedChars seg)
        hest hlen hcap
      obtain ⟨ihjoin, ihall, ihchain, ihhead⟩ := ihs
      refine ⟨?_, ihall, ihchain, ?_⟩
      · rw [ihjoin]
        simp [List.append_assoc]
      · intro hne
        have := ihhead (by simp)
        refine ⟨this.1, ?_⟩
        rw [this.2, headI_append_single current (idx, seg) hne]

/-- C9: `buildTranslationBatches` partitions the input: the concatenation of
the batches is exactly the input list with original indices; no batch is
empty; no batch exceeds 20 segments; every multi-segment batch fits the 2200
estimated-character cap (each segment priced at its text length plus the
fixed overhead 8); and at every batch boundary the closed batch was full:
adding the next batch's first segment would have exceeded the 20-segment cap
or the 2200-character cap.  Together these say a new batch is started exactly
when adding the next segment would exceed a cap. -/
theorem buildTranslationBatches_spec (segments : List TranscriptSegment) :
    (buildTranslationBatches segments).join = segments.enum ∧
    (∀ b ∈ buildTranslationBatches segments,
      b ≠ [] ∧ b.length ≤ TRANSLATION_MAX_SEGMENTS_PER_BATCH ∧
        (b.length = 1 ∨ estSum b ≤ TRANSLATION_MAX_CHARS_PER_BATCH)) ∧
    List.Chain' (fun b1 b2 => TRANSLATION_MAX_SEGMENTS_PER_BATCH ≤ b1.length ∨
      TRANSLATION_MAX_CHARS_PER_BATCH < estSum b1 + estimatedChars b2.headI.2)
      (buildTranslationBatches segments) := by
  have h := buildGo_spec segments 0 [] 0 (by simp [estSum]) (by simp) (Or.inl (by simp))
  exact ⟨by simpa [List.enum_eq_enumFrom] using h.1, h.2.1, h.2.2.1⟩

/-- C9 witness: two short segments fall into one batch holding both indices. -/
theorem buildTranslationBatches_spec_witness :
    ((buildTranslationBatches
        [⟨"a", "hi", 0, 1, none⟩, ⟨"b", "there", 1, 1, none⟩]).join =
      [(0, ⟨"a", "hi", 0, 1, none⟩), (1, ⟨"b", "there", 1, 1, none⟩)]) ∧
    ([(0, (⟨"a", "hi", 0, 1, none⟩ : TranscriptSegment)),
        (1, ⟨"b", "there", 1, 1, none⟩)] ≠ ([] : List IndexedSegment) ∧
      [(0, (⟨"a", "hi", 0, 1, none⟩ : TranscriptSegment)),
        (1, ⟨"b", "there", 1, 1, none⟩)].length ≤ TRANSLATION_MAX_SEGMENTS_PER_BATCH ∧
      ([(0, (⟨"a", "hi", 0, 1, none⟩ : TranscriptSegment)),
          (1, ⟨"b", "there", 1, 1, none⟩)].length = 1 ∨
        estSum [(0, ⟨"a", "hi", 0, 1, none⟩), (1, ⟨"b", "there", 1, 1, none⟩)]
          ≤ TRANSLATION_MAX_CHARS_PER_BATCH)) :=
  ⟨(buildTranslationBatches_spec _).1.trans (by decide),
   (buildTranslationBatches_spec
      [⟨"a", "hi", 0, 1, none⟩, ⟨"b", "there", 1, 1, none⟩]).2.1
    [(0, ⟨"a", "hi", 0, 1, none⟩), (1, ⟨"b", "there", 1, 1, none⟩)] (by decide)⟩

/-! ## Theorems for claim C10 -/

/-- Helper: a successful retry loop returns exactly one normalized
translation slot per batch entry. -/
theorem attemptBatch_ok_length (oracle : Oracle) (batch : List IndexedSegment) :
    ∀ (n ctr : Nat) (v : List (Option String)) (c : Nat),
    attemptBatch oracle batch n ctr = (some v, c) → v.length = batch.length := by
  intro n
  induction n with
  | zero =>
    intro ctr v c h
    simp [attemptBatch] at h
  | succ n ih =>
    intro ctr v c h
    rw [attemptBatch] at h
    split at h
    · rename_i v0 heq
      obtain ⟨hv, _⟩ := Prod.mk.injEq .. ▸ h
      obtain rfl : v0 = v := Option.some.injEq .. ▸ hv
      unfold requestBatchTranslations at heq
      split at heq
      · cases heq
      · rename_i raw _
        obtain rfl := (Except.ok.injEq .. ▸ heq : _ = v0).symm
        simp
    · exact ih _ v c h

/-- Helper: with enough fuel the recovery recursion answers one slot per
batch entry. -/
theorem translateBatchGo_length (oracle : Oracle) :
    ∀ (fuel : Nat) (batch : List IndexedSegment) (ctr : Nat),
    batch.length ≤ fuel → batch ≠ [] →
    (translateBatchGo oracle fuel batch ctr).1.length = batch.length := by
  intro fuel
  induction fuel with
  | zero =>
    intro batch ctr hle hne
    have : 0 < batch.length := List.length_pos.mpr hne
    omega
  | succ fuel ih =>
    intro batch ctr hle hne
    rw [translateBatchGo]
    split
    · rename_i v c heq
      exact attemptBatch_ok_length oracle batch TRANSLATION_MAX_ATTEMPTS ctr v c heq
    · rename_i c heq
      by_cases h1 : batch.length = 1
      · simp [h1]
      · have h0 : batch.length ≠ 0 := fun h => hne (List.length_eq_zero.mp h)
        rw [if_neg h1, if_neg h0]
        have hn2 : 2 ≤ batch.length := by omega
        have hmid1 : 1 ≤ (batch.length + 1) / 2 := by omega
        have hmid2 : (batch.length + 1) / 2 ≤ batch.length - 1 := by omega
        have hlt : (batch.take ((batch.length + 1) / 2)).length = (batch.length + 1) / 2 := by
          rw [List.length_take]
          omega
        have hld : (batch.drop ((batch.length + 1) / 2)).length =
            batch.length - (batch.length + 1) / 2 := by
          rw [List.length_drop]
        have hlne : batch.take ((batch.length + 1) / 2) ≠ [] := by
          intro h
          rw [h] at hlt
          simp at hlt
          omega
        have hrne : batch.drop ((batch.length + 1) / 2) ≠ [] := by
          intro h
          rw [h] at hld
          simp at hld
          omega
        rcases hL : translateBatchGo oracle fuel (batch.take ((batch.length + 1) / 2)) c with
          ⟨leftTranslations, c1⟩
        rcases hR : translateBatchGo oracle fuel (batch.drop ((batch.length + 1) / 2)) c1 with
          ⟨rightTranslations, c2⟩
        have ihl := ih (batch.take ((batch.length + 1) / 2)) c (by omega) hlne
        have ihr := ih (batch.drop ((batch.length + 1) / 2)) c1 (by omega) hrne
        rw [hL] at ihl
        rw [hR] at ihr
        simp only at ihl ihr
        simp only [hL, hR, List.length_append]
        rw [ihl, ihr, hlt, hld]
        omega

/-- Helper: above the natural bound, the fuel is irrelevant — the recursion
genuinely terminates at depth `batch.length`. -/
theorem translateBatchGo_fuel_irrelevant (oracle : Oracle) :
    ∀ (fuel : Nat) (batch : List IndexedSegment) (ctr fuel' : Nat),
    batch.length ≤ fuel → batch.length ≤ fuel' → batch ≠ [] →
    translateBatchGo oracle fuel batch ctr = translateBatchGo oracle fuel' batch ctr := by
  intro fuel
  induction fuel with
  | zero =>
    intro batch ctr fuel' hle _ hne
    have : 0 < batch.length := List.length_pos.mpr hne
    omega
  | succ fuel ih =>
    intro batch ctr fuel' hle hle' hne
    match fuel' with
    | 0 =>
      have : 0 < batch.length := List.length_pos.mpr hne
      omega
    | fuel'' + 1 =>
      rw [translateBatchGo, translateBatchGo]
      rcases hatt : attemptBatch oracle batch TRANSLATION_MAX_ATTEMPTS ctr with ⟨vOpt, c⟩
      simp only [hatt]
      cases vOpt with
      | some v => rfl
      | none =>
        by_cases h1 : batch.length = 1
        · simp [h1]
        · have h0 : batch.length ≠ 0 := fun h => hne (List.length_eq_zero.mp h)
          simp only [if_neg h1, if_neg h0]
          have hn2 : 2 ≤ batch.length := by omega
          have hlt : (batch.take ((batch.length + 1) / 2)).length = (batch.length + 1) / 2 := by
            rw [List.length_take]
            omega
          have hld : (batch.drop ((batch.length + 1) / 2)).length =
              batch.length - (batch.length + 1) / 2 := by
            rw [List.length_drop]
          have hlne : batch.take ((batch.length + 1) / 2) ≠ [] := by
            intro h
            rw [h] at hlt
            simp at hlt
            omega
          have hrne : batch.drop ((batch.length + 1) / 2) ≠ [] := by
            intro h
            rw [h] at hld
            simp at hld
            omega
          have hlft := ih (batch.take ((batch.length + 1) / 2)) c fuel''
            (by omega) (by omega) hlne
          rw [hlft]
          rcases hL : translateBatchGo oracle fuel'' (batch.take ((batch.length + 1) / 2)) c with
            ⟨leftTranslations, c1⟩
          simp only [hL]
          have hrgt := ih (batch.drop ((batch.length + 1) / 2)) c1 fuel''
            (by omega) (by omega) hrne
          rw [hrgt]

/-- C10: for every non-empty batch, `translateBatchWithRecovery` terminates —
fuel equal to the batch size suffices and any larger fuel computes the same
answer (each midpoint split of a batch of size ≥ 2 yields two strictly
smaller non-empty halves, and a single-segment batch gives up without
splitting) — and it returns exactly one translation slot (possibly `none`)
per batch entry. -/
theorem translateBatchWithRecovery_terminates (oracle : Oracle)
    (batch : List IndexedSegment) (ctr : Nat) (h : batch ≠ []) :
    (translateBatchWithRecovery oracle batch ctr).1.length = batch.length ∧
    (∀ fuel, batch.length ≤ fuel →
      translateBatchGo oracle fuel batch ctr = translateBatchWithRecovery oracle batch ctr) ∧
    (2 ≤ batch.length →
      batch.take ((batch.length + 1) / 2) ≠ [] ∧
      batch.drop ((batch.length + 1) / 2) ≠ [] ∧
      (batch.take ((batch.length + 1) / 2)).length < batch.length ∧
      (batch.drop ((batch.length + 1) / 2)).length < batch.length) := by
  refine ⟨translateBatchGo_length oracle batch.length batch ctr (le_refl _) h,
    fun fuel hle =>
      translateBatchGo_fuel_irrelevant oracle fuel batch ctr batch.length hle (le_refl _) h,
    fun hn2 => ?_⟩
  have hlt : (batch.take ((batch.length + 1) / 2)).length = (batch.length + 1) / 2 := by
    rw [List.length_take]
    omega
  have hld : (batch.drop ((batch.length + 1) / 2)).length =
      batch.length - (batch.length + 1) / 2 := by
    rw [List.length_drop]
  refine ⟨?_, ?_, by omega, by omega⟩
  · intro hnil
    rw [hnil] at hlt
    simp at hlt
    omega
  · intro hnil
    rw [hnil] at hld
    simp at hld
    omega

/-- C10 witness: a two-entry batch against an always-failing capability —
the recursion terminates after the midpoint split and reports one missing
translation per entry. -/
theorem translateBatchWithRecovery_terminates_witness :
    ((translateBatchWithRecovery (fun _ => .error ())
        [(0, ⟨"a", "hi", 0, 1, none⟩), (1, ⟨"b", "yo", 1, 1, none⟩)] 0).1.length =
      ([(0, (⟨"a", "hi", 0, 1, none⟩ : TranscriptSegment)),
        (1, ⟨"b", "yo", 1, 1, none⟩)] : List IndexedSegment).length) ∧
    ((∀ fuel, ([(0, (⟨"a", "hi", 0, 1, none⟩ : TranscriptSegment)),
          (1, ⟨"b", "yo", 1, 1, none⟩)] : List IndexedSegment).length ≤ fuel →
        translateBatchGo (fun _ => .error ()) fuel
          [(0, ⟨"a", "hi", 0, 1, none⟩), (1, ⟨"b", "yo", 1, 1, none⟩)] 0 =
        translateBatchWithRecovery (fun _ => .error ())
          [(0, ⟨"a", "hi", 0, 1, none⟩), (1, ⟨"b", "yo", 1, 1, none⟩)] 0)) ∧
    (2 ≤ ([(0, (⟨"a", "hi", 0, 1, none⟩ : TranscriptSegment)),
        (1, ⟨"b", "yo", 1, 1, none⟩)] : List IndexedSegment).length →
      ([(0, (⟨"a", "hi", 0, 1, none⟩ : TranscriptSegment)),
        (1, ⟨"b", "yo", 1, 1, none⟩)] : List IndexedSegment).take
          ((([(0, (⟨"a", "hi", 0, 1, none⟩ : TranscriptSegment)),
            (1, ⟨"b", "yo", 1, 1, none⟩)] : List IndexedSegment).length + 1) / 2) ≠ [] ∧
      ([(0, (⟨"a", "hi", 0, 1, none⟩ : TranscriptSegment)),
        (1, ⟨"b", "yo", 1, 1, none⟩)] : List IndexedSegment).drop
          ((([(0, (⟨"a", "hi", 0, 1, none⟩ : TranscriptSegment)),
            (1, ⟨"b", "yo", 1, 1, none⟩)] : List IndexedSegment).length + 1) / 2) ≠ [] ∧
      (([(0, (⟨"a", "hi", 0, 1, none⟩ : TranscriptSegment)),
        (1, ⟨"b", "yo", 1, 1, none⟩)] : List IndexedSegment).take
          ((([(0, (⟨"a", "hi", 0, 1, none⟩ : TranscriptSegment)),
            (1, ⟨"b", "yo", 1, 1, none⟩)] : List IndexedSegment).length + 1) / 2)).length <
        ([(0, (⟨"a", "hi", 0, 1, none⟩ : TranscriptSegment)),
          (1, ⟨"b", "yo", 1, 1, none⟩)] : List IndexedSegment).length ∧
      (([(0, (⟨"a", "hi", 0, 1, none⟩ : TranscriptSegment)),
        (1, ⟨"b", "yo", 1, 1, none⟩)] : List IndexedSegment).drop
          ((([(0, (⟨"a", "hi", 0, 1, none⟩ : TranscriptSegment)),
            (1, ⟨"b", "yo", 1, 1, none⟩)] : List IndexedSegment).length + 1) / 2)).length <
        ([(0, (⟨"a", "hi", 0, 1, none⟩ : TranscriptSegment)),
          (1, ⟨"b", "yo", 1, 1, none⟩)] : List IndexedSegment).length) :=
  translateBatchWithRecovery_terminates (fun _ => .error ())
    [(0, ⟨"a", "hi", 0, 1, none⟩), (1, ⟨"b", "yo", 1, 1, none⟩)] 0 (by decide)

/-! ## Theorems for claims C1 and C8 -/

/-- A segment whose `translation` field is populated with a non-empty string. -/
def Populated (s : TranscriptSegment) : Prop := ∃ t, s.translation = some t ∧ t ≠ ""

/-- The failure test of the progress counter
(`resolvedTranslation === TRANSLATION_FALLBACK_TEXT`). -/
def isFallback (s : TranscriptSegment) : Bool :=
  decide (s.translation = some TRANSLATION_FALLBACK_TEXT)

/-- Helper: a resolved translation is never the empty string. -/
theorem resolveTranslation_ne_empty (translation existing : Option String) :
    resolveTranslation translation existing ≠ "" := by
  unfold resolveTranslation
  split
  · rename_i s _
    split
    · decide
    · assumption
  · decide

/-- Helper: `take` distributes over `enumFrom`. -/
theorem enumFrom_take {α : Type} (l : List α) : ∀ (n k : Nat),
    (List.enumFrom n l).take k = List.enumFrom n (l.take k) := by
  induction l with
  | nil => intro n k; simp
  | cons a l ih =>
    intro n k
    cases k with
    | zero => simp
    | succ k => simp [List.enumFrom_cons, ih]

/-- Helper: `drop` distributes over `enumFrom`, shifting the start index. -/
theorem enumFrom_drop {α : Type} (l : List α) : ∀ (n k : Nat),
    (List.enumFrom n l).drop k = List.enumFrom (n + k) (l.drop k) := by
  induction l with
  | nil => intro n k; simp
  | cons a l ih =>
    intro n k
    cases k with
    | zero => simp
    | succ k =>
      simp only [List.enumFrom_cons, List.drop_succ_cons]
      rw [ih (n + 1) k]
      congr 1
      omega

/-- Helper: applying one batch whose entries are the consecutive indices
`c, c+1, …` replaces exactly that block of the segment list with populated
segments, and advances the failure count by the number of fallbacks in the
block. -/
theorem applyBatch_spec (chunk : List TranscriptSegment) :
    ∀ (c : Nat) (translations : List (Option String)) (ts : List TranscriptSegment)
      (failed : Nat),
    c + chunk.length ≤ ts.length →
    ∃ block : List TranscriptSegment,
      (applyBatch (List.enumFrom c chunk) translations ts failed).1 =
        ts.take c ++ block ++ ts.drop (c + chunk.length) ∧
      block.length = chunk.length ∧
      (applyBatch (List.enumFrom c chunk) translations ts failed).2 =
        failed + block.countP isFallback ∧
      (∀ s ∈ block, Populated s) := by
  induction chunk with
  | nil =>
    intro c translations ts failed _
    refine ⟨[], ?_, rfl, by simp [applyBatch], by simp⟩
    simp [applyBatch]
  | cons seg chunk ih =>
    intro c translations ts failed hlen
    have hc : c < ts.length := by
      simp only [List.length_cons] at hlen
      omega
    have henum : List.enumFrom c (seg :: chunk) = (c, seg) :: List.enumFrom (c + 1) chunk := rfl
    rw [henum, applyBatch]
    set v : TranscriptSegment := { seg with translation := some (resolveTranslation (translations.headD none) seg.translation) } with hv
    have hlen' : (c + 1) + chunk.length ≤ (ts.set c v).length := by
      simp only [List.length_set]
      simp only [List.length_cons] at hlen
      omega
    obtain ⟨block, hts, hbl, hfail, hpop⟩ :=
      ih (c + 1) (translations.drop 1) (ts.set c v)
        (if resolveTranslation (translations.headD none) seg.translation =
            TRANSLATION_FALLBACK_TEXT then failed + 1 else failed)
        hlen'
    have hset : ts.set c v = (ts.take c ++ [v]) ++ ts.drop (c + 1) := by
      rw [List.set_eq_take_cons_drop _ hc]
      simp
    have hpre : (ts.take c ++ [v]).length = c + 1 := by
      simp only [List.length_append, List.length_take, List.length_cons, List.length_nil]
      omega
    refine ⟨v :: block, ?_, by simp [hbl], ?_, ?_⟩
    · rw [hts, hset]
      rw [List.take_left' hpre]
      have hdrop : ((ts.take c ++ [v]) ++ ts.drop (c + 1)).drop (c + 1 + chunk.length) =
          ts.drop (c + (chunk.length + 1)) := by
        have h1 : c + 1 + chunk.length = (c + 1) + chunk.length := rfl
        rw [h1, ← List.drop_drop, List.drop_left' hpre, List.drop_drop]
        congr 1
        omega
      rw [hdrop]
      simp [List.append_assoc]
    · rw [hfail]
      rw [List.countP_cons]
      have hisf : isFallback v =
          decide (resolveTranslation (translations.headD none) seg.translation =
            TRANSLATION_FALLBACK_TEXT) := by
        simp [isFallback, hv]
      rw [hisf]
      by_cases hr : resolveTranslation (translations.headD none) seg.translation =
          TRANSLATION_FALLBACK_TEXT
      · rw [if_pos hr, if_pos (by simpa [List.headD_eq_head?_getD] using congrArg (decide <| · = TRANSLATION_FALLBACK_TEXT) hr)]
        omega
      · rw [if_neg hr, if_neg (by simpa [List.headD_eq_head?_getD] using hr)]
        omega
    · intro s hs
      rcases List.mem_cons.mp hs with rfl | hs
      · exact ⟨_, rfl, resolveTranslation_ne_empty _ _⟩
      · exact hpop s hs

/-- Helper: invariant of the top-level batch loop.  With the remaining
batches enumerating the suffix of the original list that starts at position
`c`, the loop fills positions `c, …, c + rem.length - 1` with populated
segments, never touches the prefix, reports strictly increasing completed
counts ending at `c + rem.length`, and in every snapshot `failed` equals the
number of fallback-stamped segments among the first `completed` positions. -/
theorem runBatches_spec (batches : List (List IndexedSegment)) :
    ∀ (oracle : Oracle) (total : Nat) (rem : List TranscriptSegment)
      (ts : List TranscriptSegment) (c failed ctr : Nat),
    ts.length = total →
    batches.join = List.enumFrom c rem →
    c + rem.length ≤ total →
    failed = (ts.take c).countP isFallback →
    (∀ b ∈ batches, b ≠ []) →
    (runBatches oracle total batches ts c failed ctr).1.length = total ∧
    (runBatches oracle total batches ts c failed ctr).1.take c = ts.take c ∧
    (∀ j, c ≤ j → j < c + rem.length →
      ∃ s, (runBatches oracle total batches ts c failed ctr).1.get? j = some s ∧ Populated s) ∧
    List.Chain' (fun e1 e2 => e1.completed < e2.completed)
      (runBatches oracle total batches ts c failed ctr).2 ∧
    (∀ e ∈ (runBatches oracle total batches ts c failed ctr).2,
      c < e.completed ∧ e.total = total ∧
        e.failed = (e.translatedSegments.take e.completed).countP isFallback) ∧
    (batches ≠ [] →
      ∃ e, ((runBatches oracle total batches ts c failed ctr).2).getLast? = some e ∧
        e.completed = c + rem.length) := by
  induction batches with
  | nil =>
    intro oracle total rem ts c failed ctr hts hjoin hle hfail _
    have hrem : rem = [] := by
      have : List.enumFrom c rem = [] := hjoin.symm.trans rfl
      exact List.enumFrom_eq_nil.mp this
    subst hrem
    refine ⟨hts, rfl, ?_, by simp [runBatches], by simp [runBatches], fun h => absurd rfl h⟩
    intro j hj1 hj2
    simp at hj2
    omega
  | cons b rest ih =>
    intro oracle total rem ts c failed ctr hts hjoin hle hfail hne
    have hbne : b ≠ [] := hne b (List.mem_cons_self _ _)
    have hblen : 0 < b.length := List.length_pos.mpr hbne
    have hjoin' : b ++ rest.join = List.enumFrom c rem := hjoin
    have hbeq : b = List.enumFrom c (rem.take b.length) := by
      conv_lhs => rw [(List.take_left b rest.join).symm, hjoin', enumFrom_take]
    have hrestj : rest.join = List.enumFrom (c + b.length) (rem.drop b.length) := by
      conv_lhs => rw [(List.drop_left b rest.join).symm, hjoin', enumFrom_drop]
    have hble : b.length ≤ rem.length := by
      have := congrArg List.length hbeq
      simp only [List.enumFrom_length, List.length_take] at this
      omega
    have hchunklen : (rem.take b.length).length = b.length := by
      simp only [List.length_take]
      omega
    have hcle : c + b.length ≤ total := by omega
    rw [runBatches]
    rcases hT : translateBatchWithRecovery oracle b ctr with ⟨translations, ctr1⟩
    simp only [hT]
    obtain ⟨block, hts1, hblock, hfail1, hpop⟩ :=
      applyBatch_spec (rem.take b.length) c translations ts failed
        (by rw [hchunklen]; omega)
    rw [← hbeq] at hts1 hfail1
    rw [hchunklen] at hts1
    rcases hA : applyBatch b translations ts failed with ⟨ts1, failed1⟩
    simp only [hA]
    rw [hA] at hts1 hfail1
    simp only at hts1 hfail1
    have htakec_len : (ts.take c).length = c := by
      simp only [List.length_take]
      omega
    have hts1_len : ts1.length = total := by
      rw [hts1]
      simp only [List.length_append, List.length_take, List.length_drop]
      omega
    have hts1_takec : ts1.take c = ts.take c := by
      rw [hts1, List.append_assoc, List.take_append_eq_append_take, htakec_len]
      simp
    have hts1_takecb : ts1.take (c + b.length) = ts.take c ++ block := by
      rw [hts1]
      refine List.take_left' ?_
      simp only [List.length_append, htakec_len, hblock, hchunklen]
    have hfail1_eq : failed1 = (ts1.take (c + b.length)).countP isFallback := by
      rw [hts1_takecb, List.countP_append, hfail1, hfail]
    have hdroplen : (rem.drop b.length).length = rem.length - b.length := by
      simp only [List.length_drop]
    have IH := ih oracle total (rem.drop b.length) ts1 (c + b.length) failed1 ctr1
      hts1_len hrestj (by omega) hfail1_eq
      (fun b' hb' => hne b' (List.mem_cons_of_mem _ hb'))
    rcases hRec : runBatches oracle total rest ts1 (c + b.length) failed1 ctr1 with
      ⟨finalTs, events⟩
    simp only [hRec]
    rw [hRec] at IH
    simp only at IH
    obtain ⟨IHlen, IHtake, IHpop, IHchain, IHev, IHlast⟩ := IH
    refine ⟨IHlen, ?_, ?_, ?_, ?_, ?_⟩
    · -- the prefix before c is never touched
      have h1 : finalTs.take c = (finalTs.take (c + b.length)).take c := by
        rw [List.take_take]
        congr 1
        omega
      rw [h1, IHtake, ← hts1_takec]
      rw [List.take_take]
      congr 1
      omega
    · -- every position in [c, c + rem.length) ends populated
      intro j hj1 hj2
      by_cases hjb : j < c + b.length
      · have hgf : finalTs.get? j = ts1.get? j := by
          have h1 : (finalTs.take (c + b.length)).get? j = finalTs.get? j :=
            List.get?_take hjb
          have h2 : (ts1.take (c + b.length)).get? j = ts1.get? j :=
            List.get?_take hjb
          rw [← h1, ← h2, IHtake]
        have hjblock : j - c < block.length := by
          rw [hblock, hchunklen]
          omega
        have hget : ts1.get? j = block.get? (j - c) := by
          rw [hts1, List.append_assoc]
          rw [List.get?_append_right (by rw [htakec_len]; omega)]
          rw [htakec_len]
          exact List.get?_append hjblock
        obtain ⟨hlt, hsome⟩ : j - c < block.length ∧
            block.get? (j - c) = some (block.get ⟨j - c, hjblock⟩) :=
          ⟨hjblock, List.get?_eq_get hjblock⟩
        refine ⟨block.get ⟨j - c, hjblock⟩, ?_, hpop _ (List.get_mem block _ _)⟩
        rw [hgf, hget, hsome]
      · have := IHpop j (by omega) (by rw [hdroplen]; omega)
        exact this
    · -- completed counts strictly increase
      rw [List.chain'_cons']
      refine ⟨?_, IHchain⟩
      intro e he
      have hmem : e ∈ events := List.mem_of_mem_head? he
      exact (IHev e hmem).1
    · -- every snapshot: bounds, total, and the failed-count characterization
      intro e he
      rcases List.mem_cons.mp he with rfl | he
      · refine ⟨?_, rfl, hfail1_eq⟩
        show c < c + b.length
        omega
      · obtain ⟨h1, h2, h3⟩ := IHev e he
        refine ⟨?_, h2, h3⟩
        omega
    · -- the final reported completed count covers the whole suffix
      intro _
      cases rest with
      | nil =>
        have hevents : events = [] := by
          rw [runBatches] at hRec
          exact ((Prod.mk.injEq .. ▸ hRec : _ ∧ _).2).symm
        subst hevents
        have hrem0 : rem.length - b.length = 0 := by
          have hlenj := congrArg List.length hrestj
          simp only [List.enumFrom_length, List.length_drop] at hlenj
          simpa using hlenj.symm
        refine ⟨_, rfl, ?_⟩
        show c + b.length = c + rem.length
        omega
      | cons r rs =>
        obtain ⟨e, hlaste, hecomp⟩ := IHlast (by simp)
        have hene : events ≠ [] := by
          intro h
          rw [h] at hlaste
          simp at hlaste
        refine ⟨e, ?_, ?_⟩
        · cases events with
          | nil => exact absurd rfl hene
          | cons e1 es => rw [List.getLast?_cons_cons, ← hlaste]
        · rw [hecomp, hdroplen]
          omega

/-- Helper: with a working client and non-empty input, `translateSegments`
is the batch loop over `buildTranslationBatches`. -/
theorem translateSegments_eq_runBatches (oracle : Oracle)
    (segments : List TranscriptSegment) (h : segments ≠ []) :
    translateSegments true oracle segments =
      runBatches oracle segments.length (buildTranslationBatches segments) segments 0 0 0 := by
  unfold translateSegments
  rw [if_neg (by simpa [List.isEmpty_iff] using h), if_neg (by simp)]

/-- Helper: the batch list of a non-empty input is non-empty and enumerates
the whole input. -/
theorem buildTranslationBatches_join_enumFrom (segments : List TranscriptSegment) :
    (buildTranslationBatches segments).join = List.enumFrom 0 segments ∧
    (segments ≠ [] → buildTranslationBatches segments ≠ []) := by
  have hC9 := buildTranslationBatches_spec segments
  have hjoin : (buildTranslationBatches segments).join = List.enumFrom 0 segments := by
    rw [hC9.1, List.enum_eq_enumFrom]
  refine ⟨hjoin, ?_⟩
  intro h hnil
  rw [hnil] at hjoin
  have h0 : segments = [] := by simpa using hjoin.symm
  exact h h0

/-- C1: for every non-empty input segment list, `translateSegments` returns
segments whose `translation` field is always populated with a non-empty
string (a real translation or the fallback sentinel) — the embedding is a
total function, so no input makes it throw — and when the client cannot be
constructed it returns the input with every segment stamped with the
fallback sentinel. -/
theorem translateSegments_populated (clientOk : Bool) (oracle : Oracle)
    (segments : List TranscriptSegment) (h : segments ≠ []) :
    (∀ s ∈ (translateSegments clientOk oracle segments).1, Populated s) ∧
    (clientOk = false → (translateSegments clientOk oracle segments).1 =
      segments.map (fun seg =>
        { seg with translation := some TRANSLATION_FALLBACK_TEXT })) := by
  cases clientOk with
  | false =>
    have heq : (translateSegments false oracle segments).1 =
        segments.map (fun seg =>
          { seg with translation := some TRANSLATION_FALLBACK_TEXT }) := by
      unfold translateSegments
      rw [if_neg (by simpa [List.isEmpty_iff] using h)]
      simp
    refine ⟨?_, fun _ => heq⟩
    intro s hs
    rw [heq] at hs
    obtain ⟨seg, _, rfl⟩ := List.mem_map.mp hs
    exact ⟨TRANSLATION_FALLBACK_TEXT, rfl, by decide⟩
  | true =>
    obtain ⟨hjoin, hbne⟩ := buildTranslationBatches_join_enumFrom segments
    have hC9 := buildTranslationBatches_spec segments
    have hspec := runBatches_spec (buildTranslationBatches segments) oracle
      segments.length segments segments 0 0 0 rfl hjoin (by omega) (by simp)
      (fun b hb => (hC9.2.1 b hb).1)
    rw [translateSegments_eq_runBatches oracle segments h]
    obtain ⟨hlen, _, hpop, _, _, _⟩ := hspec
    refine ⟨?_, fun hfalse => by cases hfalse⟩
    intro s hs
    obtain ⟨j, hj⟩ := List.mem_iff_get?.mp hs
    have hjlt : j <
        (runBatches oracle segments.length (buildTranslationBatches segments)
          segments 0 0 0).1.length := by
      by_contra hge
      rw [List.get?_eq_none.mpr (by omega)] at hj
      cases hj
    rw [hlen] at hjlt
    obtain ⟨s', hs', hp⟩ := hpop j (by omega) (by omega)
    rw [hj] at hs'
    cases hs'
    exact hp

/-- C1 witness: a single segment against an always-failing capability with a
working client — the output is populated (with the fallback sentinel), and
against a broken client the whole input is stamped. -/
theorem translateSegments_populated_witness :
    (∀ s ∈ (translateSegments true (fun _ => .error ())
        [⟨"a", "hi", 0, 1, none⟩]).1, Populated s) ∧
    ((true : Bool) = false → (translateSegments true (fun _ => .error ())
        [⟨"a", "hi", 0, 1, none⟩]).1 =
      [(⟨"a", "hi", 0, 1, none⟩ : TranscriptSegment)].map (fun seg =>
        { seg with translation := some TRANSLATION_FALLBACK_TEXT })) :=
  translateSegments_populated true (fun _ => .error ()) [⟨"a", "hi", 0, 1, none⟩] (by decide)

/-- C8: during `translateSegments` (with a working client and non-empty
input), the completed counts reported across successive progress events are
strictly increasing, the final reported completed count equals the number of
input segments, and in every snapshot the failed count equals the number of
segments among the first `completed` positions of the snapshot whose
resolved translation is the fallback sentinel. -/
theorem translateSegments_progress (oracle : Oracle)
    (segments : List TranscriptSegment) (h : segments ≠ []) :
    List.Chain' (fun e1 e2 => e1.completed < e2.completed)
      (translateSegments true oracle segments).2 ∧
    (∃ e, ((translateSegments true oracle segments).2).getLast? = some e ∧
      e.completed = segments.length) ∧
    (∀ e ∈ (translateSegments true oracle segments).2,
      e.total = segments.length ∧
        e.failed = (e.translatedSegments.take e.completed).countP isFallback) := by
  obtain ⟨hjoin, hbne⟩ := buildTranslationBatches_join_enumFrom segments
  have hC9 := buildTranslationBatches_spec segments
  have hspec := runBatches_spec (buildTranslationBatches segments) oracle
    segments.length segments segments 0 0 0 rfl hjoin (by omega) (by simp)
    (fun b hb => (hC9.2.1 b hb).1)
  rw [translateSegments_eq_runBatches oracle segments h]
  obtain ⟨_, _, _, hchain, hev, hlast⟩ := hspec
  refine ⟨hchain, ?_, ?_⟩
  · obtain ⟨e, h1, h2⟩ := hlast (hbne h)
    refine ⟨e, h1, ?_⟩
    rw [h2]
    omega
  · intro e he
    obtain ⟨_, h2, h3⟩ := hev e he
    exact ⟨h2, h3⟩

/-- C8 witness: two segments translated in one batch by a capability that
answers immediately — one event is emitted, with `completed = total = 2` and
`failed = 0`. -/
theorem translateSegments_progress_witness :
    List.Chain' (fun e1 e2 => e1.completed < e2.completed)
      (translateSegments true (fun _ => .ok [some "uno", some "dos"])
        [⟨"a", "hi", 0, 1, none⟩, ⟨"b", "yo", 1, 1, none⟩]).2 ∧
    (∃ e, ((translateSegments true (fun _ => .ok [some "uno", some "dos"])
        [⟨"a", "hi", 0, 1, none⟩, ⟨"b", "yo", 1, 1, none⟩]).2).getLast? = some e ∧
      e.completed = ([(⟨"a", "hi", 0, 1, none⟩ : TranscriptSegment),
        ⟨"b", "yo", 1, 1, none⟩]).length) ∧
    (∀ e ∈ (translateSegments true (fun _ => .ok [some "uno", some "dos"])
        [⟨"a", "hi", 0, 1, none⟩, ⟨"b", "yo", 1, 1, none⟩]).2,
      e.total = ([(⟨"a", "hi", 0, 1, none⟩ : TranscriptSegment),
        ⟨"b", "yo", 1, 1, none⟩]).length ∧
        e.failed = (e.translatedSegments.take e.completed).countP isFallback) :=
  translateSegments_progress (fun _ => .ok [some "uno", some "dos"])
    [⟨"a", "hi", 0, 1, none⟩, ⟨"b", "yo", 1, 1, none⟩] (by decide)

end Translate

end VoiceTrainer
